import Mathlib

/-!
Verification of `scripts/make_plots.py` (heteronym pronunciation plots).

The script is a linear pipeline over a single table of pronunciation
records: `load_data` discovers CSV files named `heteronyms_*.csv` in a
directory, concatenates them (tagging each row with `source_file`),
checks the five required columns, and trims/stringifies the `language`,
`word` and `ipa` columns.  `plot_variant_counts`, `plot_ipa_length` and
`plot_word_cards` then aggregate the table.

The embedding below models a pandas cell as either the missing value
(`Cell.na`, pandas `NaN`) or a string, a raw CSV row as an association
list from column names to cells (absent columns read as `NaN`, which is
exactly what `pd.concat` produces for columns a file does not have), and
the pandas operations used by the script:

* `df.groupby([...]).agg(nunique)` — grouping keys exclude rows whose
  key cells are missing (pandas `dropna=True`), and `nunique` counts
  distinct non-missing values;
* `df.sort_values([...])` — a stable sort under a lexicographic
  multi-key comparator (pandas uses `np.lexsort`); modelled with
  `List.insertionSort`, which is stable;
* `astype(str)` — renders the missing value as the literal string
  `"nan"`; `.str.strip()` — trims surrounding whitespace;
* Python's `sorted` on strings — lexicographic by code point, modelled
  by the comparator `strCmp` below.
-/

/-- Comparison of characters by code point (Python string order). -/
def charCmp (a b : Char) : Ordering := compareOfLessAndEq a b

/-- Comparison of naturals, as an `Ordering`-valued comparator. -/
def natCmp (a b : Nat) : Ordering := compareOfLessAndEq a b

/-- Lexicographic comparison of character lists by code point: this is the
order Python uses to compare `str` values. -/
def clistCmp : List Char → List Char → Ordering
  | [], [] => .eq
  | [], _ :: _ => .lt
  | _ :: _, [] => .gt
  | a :: as, b :: bs => (charCmp a b).then (clistCmp as bs)

/-- Python's comparison of strings: lexicographic on code points. -/
def strCmp (a b : String) : Ordering := clistCmp a.data b.data

/-- A pandas cell as it occurs in this script: either the missing value
`NaN` or a string.  (`astype(str)` renders the missing value as the
literal string `"nan"`.) -/
inductive Cell where
  | na : Cell
  | str : String → Cell
deriving DecidableEq

/-- `astype(str)` on one cell: `NaN` becomes the literal string `"nan"`. -/
def Cell.toPyStr : Cell → String
  | .na => "nan"
  | .str s => s

/-- View of a cell used by `dropna` / `nunique`: missing values are
excluded, string values kept. -/
def Cell.toOpt : Cell → Option String
  | .na => none
  | .str s => some s

/-- Python `str.strip()` on the underlying character list: drop leading
whitespace, then drop trailing whitespace. -/
def stripChars (l : List Char) : List Char :=
  ((l.dropWhile Char.isWhitespace).reverse.dropWhile Char.isWhitespace).reverse

/-- Python `str.strip()`. -/
def pyStrip (s : String) : String := ⟨stripChars s.data⟩

/-- One row of a CSV file as read by `pd.read_csv`: an association list
from column names to cells.  A column absent from the row reads as `NaN`
(this is what `pd.concat` fills in for columns a file lacks). -/
def getCol : List (String × Cell) → String → Cell
  | [], _ => .na
  | (k, v) :: rest, c => if k = c then v else getCol rest c

/-- A CSV file in the data directory: its file name, its header and its
rows. -/
structure CsvFile where
  name : String
  cols : List String
  rows : List (List (String × Cell))

/-- Bool test for `l` being an initial segment of `s` (character lists). -/
def clInit : List Char → List Char → Bool
  | [], _ => true
  | _ :: _, [] => false
  | a :: as, b :: bs => decide (a = b) && clInit as bs

/-- Bool test for `l` being a final segment of `s` (character lists). -/
def clFinal (l s : List Char) : Bool := clInit l.reverse s.reverse

/-- The glob pattern `heteronyms_*.csv` of `load_data`: the name starts
with `heteronyms_`, ends with `.csv`, and is long enough that the two do
not overlap (`*` may match the empty string). -/
def matchesPattern (s : String) : Bool :=
  clInit "heteronyms_".data s.data && clFinal ".csv".data s.data &&
    decide (15 ≤ s.data.length)

/-- The two failure modes of `load_data`: `FileNotFoundError` when no
file matches the pattern, `ValueError` naming the missing required
columns otherwise. -/
inductive LoadError where
  | noInput : LoadError
  | missingColumns : List String → LoadError
deriving DecidableEq

/-- A loaded pronunciation record: the five required columns plus the
`source_file` provenance tag added at load time. -/
structure Row where
  language : Cell
  word : Cell
  sense_id : Cell
  meaning : Cell
  ipa : Cell
  source_file : String
deriving DecidableEq

/-- Reading one raw CSV row into a record, tagging it with the name of
its originating file (`df["source_file"] = path.name`). -/
def rawToRow (fname : String) (r : List (String × Cell)) : Row :=
  { language := getCol r "language"
    word := getCol r "word"
    sense_id := getCol r "sense_id"
    meaning := getCol r "meaning"
    ipa := getCol r "ipa"
    source_file := fname }

/-- The normalization applied to one of the three string columns:
`astype(str).str.strip()`. -/
def normCell (c : Cell) : Cell := .str (pyStrip c.toPyStr)

/-- The normalization pass of `load_data` on one record: coerce and trim
`word`, `language` and `ipa`; other fields are untouched. -/
def normRow (r : Row) : Row :=
  { r with word := normCell r.word
           language := normCell r.language
           ipa := normCell r.ipa }

/-- File order used by `sorted(data_dir.glob(...))`: lexicographic on
file names. -/
def fileLe (f g : CsvFile) : Prop := strCmp f.name g.name ≠ .gt

instance : DecidableRel fileLe := fun f g =>
  inferInstanceAs (Decidable (strCmp f.name g.name ≠ .gt))

/-- The matching files of the data directory, in sorted name order
(`sorted(data_dir.glob("heteronyms_*.csv"))`). -/
def matchingFiles (dir : List CsvFile) : List CsvFile :=
  (dir.filter (fun f => matchesPattern f.name)).insertionSort fileLe

/-- The five required columns checked by `load_data`. -/
def requiredCols : List String := ["language", "word", "sense_id", "meaning", "ipa"]

/-- The columns of the concatenated table: the union of the matching
files' headers plus the added `source_file` column. -/
def unionCols (dir : List CsvFile) : List String :=
  ((matchingFiles dir).flatMap (fun f => f.cols)) ++ ["source_file"]

/-- `load_data`: read every file matching `heteronyms_*.csv` in sorted
name order, tag rows with `source_file`, concatenate, fail when no file
matched or a required column is absent from the concatenated table, then
normalize the `word`, `language` and `ipa` columns. -/
def load_data (dir : List CsvFile) : Except LoadError (List Row) :=
  if (matchingFiles dir).isEmpty then .error .noInput
  else if (requiredCols.filter (fun c => decide (c ∉ unionCols dir))).isEmpty then
    .ok ((((matchingFiles dir).map (fun f => f.rows.map (rawToRow f.name))).flatten).map normRow)
  else .error (.missingColumns (requiredCols.filter (fun c => decide (c ∉ unionCols dir))))

/-- The contribution of one matching file to the loaded table: its rows,
tagged with the file name and normalized.  `load_data` returns the
concatenation of these segments over the matching files in sorted name
order. -/
def fileSeg (f : CsvFile) : List Row :=
  f.rows.map (fun raw => normRow (rawToRow f.name raw))

/-- The groupby key of a record under `groupby(["language", "word"])`:
present only when both key cells are non-missing (pandas drops rows with
a missing group key). -/
def keyOf (r : Row) : Option (String × String) :=
  match r.language, r.word with
  | .str l, .str w => some (l, w)
  | _, _ => none

/-- The distinct `(language, word)` group keys of a table. -/
def groupKeys (t : List Row) : List (String × String) :=
  (t.filterMap keyOf).dedup

/-- Ascending order on group keys (`groupby` with `sort=True`):
language, then word. -/
def pairLe (a b : String × String) : Prop :=
  (strCmp a.1 b.1).then (strCmp a.2 b.2) ≠ .gt

instance : DecidableRel pairLe := fun a b =>
  inferInstanceAs (Decidable ((strCmp a.1 b.1).then (strCmp a.2 b.2) ≠ .gt))

/-- The group keys in the ascending key order `groupby` emits. -/
def sortedKeys (t : List Row) : List (String × String) :=
  (groupKeys t).insertionSort pairLe

/-- The rows of the `(l, w)` group: rows whose `language` cell equals the
string `l` and whose `word` cell equals the string `w`.  This is also the
boolean-mask subset `data[(data["language"] == l) & (data["word"] == w)]`
taken by `plot_word_cards` (a missing cell never equals a string, as in
pandas). -/
def groupRows (t : List Row) (l w : String) : List Row :=
  t.filter (fun r => decide (r.language = .str l ∧ r.word = .str w))

/-- Pandas `nunique` on a column: the number of distinct non-missing
values. -/
def nunique (cs : List Cell) : Nat := (cs.filterMap Cell.toOpt).dedup.length

/-- One row of the `counts` table of `plot_variant_counts`. -/
structure CountRow where
  language : String
  word : String
  n_variants : Nat
  n_senses : Nat
deriving DecidableEq

/-- The `counts` table before sorting:
`data.groupby(["language", "word"], as_index=False).agg(n_variants=("ipa", "nunique"), n_senses=("sense_id", "nunique"))`. -/
def variantCounts (t : List Row) : List CountRow :=
  (sortedKeys t).map (fun p =>
    { language := p.1
      word := p.2
      n_variants := nunique ((groupRows t p.1 p.2).map Row.ipa)
      n_senses := nunique ((groupRows t p.1 p.2).map Row.sense_id) })

/-- The `sort_values(["language", "n_variants", "n_senses", "word"],
ascending=[True, False, False, True])` comparator of
`plot_variant_counts`. -/
def countLe (a b : CountRow) : Prop :=
  (strCmp a.language b.language).then ((natCmp b.n_variants a.n_variants).then
    ((natCmp b.n_senses a.n_senses).then (strCmp a.word b.word))) ≠ .gt

instance : DecidableRel countLe := fun a b =>
  inferInstanceAs (Decidable
    ((strCmp a.language b.language).then ((natCmp b.n_variants a.n_variants).then
      ((natCmp b.n_senses a.n_senses).then (strCmp a.word b.word))) ≠ .gt))

/-- The `counts` table of `plot_variant_counts` as it is handed to the
bar-chart renderer: every `(language, word)` group, sorted by language
ascending, variant count descending, sense count descending, word
ascending.  The function applies no top-N truncation. -/
def plot_variant_counts (t : List Row) : List CountRow :=
  (variantCounts t).insertionSort countLe

/-- One row of the `words` table of `plot_word_cards`. -/
structure WcGroup where
  language : String
  word : String
  n_variants : Nat
deriving DecidableEq

/-- `data.groupby(["language", "word"], as_index=False).agg(n_variants=("ipa", "nunique"))` in `plot_word_cards`. -/
def wcGroups (t : List Row) : List WcGroup :=
  (sortedKeys t).map (fun p =>
    { language := p.1
      word := p.2
      n_variants := nunique ((groupRows t p.1 p.2).map Row.ipa) })

/-- The `sort_values(["n_variants", "language", "word"],
ascending=[False, True, True])` comparator of `plot_word_cards`. -/
def wcLe (a b : WcGroup) : Prop :=
  (natCmp b.n_variants a.n_variants).then
    ((strCmp a.language b.language).then (strCmp a.word b.word)) ≠ .gt

instance : DecidableRel wcLe := fun a b =>
  inferInstanceAs (Decidable
    ((natCmp b.n_variants a.n_variants).then
      ((strCmp a.language b.language).then (strCmp a.word b.word)) ≠ .gt))

/-- The sorted `words` table of `plot_word_cards`, before `head`. -/
def wcSorted (t : List Row) : List WcGroup :=
  (wcGroups t).insertionSort wcLe

/-- The `words` table after `.head(max_words)`: the selected groups. -/
def wcSelected (t : List Row) (max_words : Nat) : List WcGroup :=
  (wcSorted t).take max_words

/-- Ascending order on strings used by Python's `sorted`. -/
def strLe (a b : String) : Prop := strCmp a b ≠ .gt

instance : DecidableRel strLe := fun a b =>
  inferInstanceAs (Decidable (strCmp a b ≠ .gt))

/-- Ascending `(ipa, meaning)` order used by
`sort_values(["ipa", "meaning"])` in `plot_word_cards`. -/
def pmLe (a b : String × String) : Prop :=
  (strCmp a.1 b.1).then (strCmp a.2 b.2) ≠ .gt

instance : DecidableRel pmLe := fun a b =>
  inferInstanceAs (Decidable ((strCmp a.1 b.1).then (strCmp a.2 b.2) ≠ .gt))

/-- `sorted(subset["ipa"].dropna().unique().tolist())`: the distinct
non-missing `ipa` values of the `(l, w)` group, in ascending order. -/
def cardIpas (t : List Row) (l w : String) : List String :=
  ((((groupRows t l w).map Row.ipa).filterMap Cell.toOpt).dedup).insertionSort strLe

/-- The `(ipa, meaning)` pair of a record, present only when both cells
are non-missing (`subset[["ipa", "meaning"]].dropna()`). -/
def pairOf (r : Row) : Option (String × String) :=
  match r.ipa, r.meaning with
  | .str i, .str m => some (i, m)
  | _, _ => none

/-- `subset[["ipa", "meaning"]].dropna().drop_duplicates().sort_values(["ipa", "meaning"])` for the `(l, w)` group. -/
def cardMeanings (t : List Row) (l w : String) : List (String × String) :=
  (((groupRows t l w).filterMap pairOf).dedup).insertionSort pmLe

/-- One rendered word card: header `[language] word`, the variant line
and the meaning lines. -/
structure Card where
  language : String
  word : String
  ipas : List String
  meanings : List (String × String)
deriving DecidableEq

/-- The card contents `plot_word_cards` builds for the selected groups
(the `rows` list of the source, before text layout). -/
def plot_word_cards (t : List Row) (max_words : Nat) : List Card :=
  (wcSelected t max_words).map (fun g =>
    { language := g.language
      word := g.word
      ipas := cardIpas t g.language g.word
      meanings := cardMeanings t g.language g.word })

/-- `tmp["ipa"].str.len()` on one cell: length of a string, missing for a
missing value. -/
def cellStrLen : Cell → Option Nat
  | .na => none
  | .str s => some s.length

/-- `plot_ipa_length` with its data flow made explicit: `tmp` is a copy
of `data` (`data.copy()`), the derived `ipa_len` column is added to the
copy only, and the first component is the loaded table as it stands
after the call. -/
def plot_ipa_length (data : List Row) : List Row × List (Row × Option Nat) :=
  let tmp := data.map (fun r => r)
  (data, tmp.map (fun r => (r, cellStrLen r.ipa)))

/-- `plot_variant_counts` with the state of the loaded table after the
call as first component: the function only derives new tables
(`groupby`/`agg`/`sort_values` return fresh frames) and never writes
into `data`. -/
def plot_variant_counts_eff (data : List Row) : List Row × List CountRow :=
  (data, plot_variant_counts data)

/-- `plot_word_cards` with the state of the loaded table after the call
as first component: boolean-mask subsetting, `unique`, `dropna`,
`drop_duplicates` and `sort_values` all derive fresh frames and never
write into `data`. -/
def plot_word_cards_eff (data : List Row) (max_words : Nat) :
    List Row × List Card :=
  (data, plot_word_cards data max_words)

/-- The row ordering stated for the `counts` table of
`plot_variant_counts`: language ascending, then variant count
descending, then sense count descending, then word ascending (string
order is Python's code-point order `strCmp`). -/
def countOrder (a b : CountRow) : Prop :=
  strCmp a.language b.language = .lt ∨
  (a.language = b.language ∧ (b.n_variants < a.n_variants ∨
    (a.n_variants = b.n_variants ∧ (b.n_senses < a.n_senses ∨
      (a.n_senses = b.n_senses ∧ (strCmp a.word b.word = .lt ∨ a.word = b.word))))))

/-- The group ordering stated for the selection of `plot_word_cards`:
distinct-ipa count descending, then language ascending, then word
ascending. -/
def wcOrder (a b : WcGroup) : Prop :=
  b.n_variants < a.n_variants ∨
  (a.n_variants = b.n_variants ∧ (strCmp a.language b.language = .lt ∨
    (a.language = b.language ∧ (strCmp a.word b.word = .lt ∨ a.word = b.word))))

theorem charCmp_transCmp : Batteries.TransCmp charCmp :=
  Batteries.TransCmp.compareOfLessAndEq_of_le
    (fun x => lt_irrefl x) (fun h1 h2 => lt_trans h1 h2)
    (fun h => le_of_not_lt h) (fun h1 h2 => le_antisymm h1 h2)

theorem charCmp_eq_iff {a b : Char} : charCmp a b = .eq ↔ a = b := by
  rw [charCmp, compareOfLessAndEq]
  by_cases h1 : a < b
  · rw [if_pos h1]
    constructor
    · intro h; cases h
    · intro h
      exact absurd (h ▸ h1) (lt_irrefl b)
  · rw [if_neg h1]
    by_cases h2 : a = b
    · rw [if_pos h2]
      simp [h2]
    · rw [if_neg h2]
      constructor
      · intro h; cases h
      · intro h; exact absurd h h2

theorem natCmp_transCmp : Batteries.TransCmp natCmp :=
  Batteries.TransCmp.compareOfLessAndEq_of_le
    (fun x => lt_irrefl x) (fun h1 h2 => lt_trans h1 h2)
    (fun h => le_of_not_lt h) (fun h1 h2 => le_antisymm h1 h2)

theorem natCmp_eq_iff {a b : Nat} : natCmp a b = .eq ↔ a = b := by
  rw [natCmp, compareOfLessAndEq]
  by_cases h1 : a < b
  · rw [if_pos h1]
    constructor
    · intro h; cases h
    · intro h
      exact absurd (h ▸ h1) (lt_irrefl b)
  · rw [if_neg h1]
    by_cases h2 : a = b
    · rw [if_pos h2]
      simp [h2]
    · rw [if_neg h2]
      constructor
      · intro h; cases h
      · intro h; exact absurd h h2

theorem natCmp_lt_iff {a b : Nat} : natCmp a b = .lt ↔ a < b :=
  Batteries.compareOfLessAndEq_eq_lt

theorem clistCmp_symm (x y : List Char) : (clistCmp x y).swap = clistCmp y x := by
  induction x generalizing y with
  | nil => cases y <;> rfl
  | cons a as ih =>
    cases y with
    | nil => rfl
    | cons b bs =>
      show ((charCmp a b).then (clistCmp as bs)).swap = _
      rw [Ordering.swap_then, charCmp_transCmp.symm a b, ih bs]
      rfl

theorem clistCmp_eq_iff {x y : List Char} : clistCmp x y = .eq ↔ x = y := by
  induction x generalizing y with
  | nil => cases y <;> simp [clistCmp]
  | cons a as ih =>
    cases y with
    | nil => simp [clistCmp]
    | cons b bs =>
      show (charCmp a b).then (clistCmp as bs) = .eq ↔ _
      rw [Ordering.then_eq_eq]
      simp [charCmp_eq_iff, ih]

theorem clistCmp_le_trans {x y z : List Char} (h1 : clistCmp x y ≠ .gt)
    (h2 : clistCmp y z ≠ .gt) : clistCmp x z ≠ .gt := by
  haveI := charCmp_transCmp
  induction x generalizing y z with
  | nil => cases z <;> simp [clistCmp]
  | cons a as ih =>
    cases y with
    | nil => exact absurd rfl h1
    | cons b bs =>
      cases z with
      | nil => simp [clistCmp] at h2
      | cons c cs =>
        show (charCmp a c).then (clistCmp as cs) ≠ .gt
        have h1' : (charCmp a b).then (clistCmp as bs) ≠ .gt := h1
        have h2' : (charCmp b c).then (clistCmp bs cs) ≠ .gt := h2
        rw [ne_eq, Ordering.then_eq_gt, not_or, not_and] at h1' h2' ⊢
        refine ⟨charCmp_transCmp.le_trans h1'.1 h2'.1, fun e1 e2 => ?_⟩
        have hab : charCmp a b ≠ .gt ∨ charCmp b c ≠ Ordering.eq := by
          by_cases hbc : charCmp b c = Ordering.eq
          · left
            have : charCmp a b = charCmp a c := charCmp_transCmp.cmp_congr_right hbc
            rw [this, e1]; intro h; cases h
          · right; exact hbc
        rcases hab with hab | hbc
        · match hab' : charCmp a b with
          | .gt => exact hab hab'
          | .eq =>
            have hbceq : charCmp b c = Ordering.eq := by
              have : charCmp b c = charCmp a c := (charCmp_transCmp.cmp_congr_left hab').symm
              rw [this, e1]
            exact ih (h1'.2 hab') (h2'.2 hbceq) e2
          | .lt =>
            have : charCmp a c = .lt := Batteries.TransCmp.lt_le_trans hab' h2'.1
            rw [e1] at this; cases this
        · match hbc' : charCmp b c with
          | .gt => exact h2'.1 hbc'
          | .eq => exact absurd hbc' hbc
          | .lt =>
            have : charCmp a c = .lt := Batteries.TransCmp.le_lt_trans h1'.1 hbc'
            rw [e1] at this; cases this

theorem clistCmp_transCmp : Batteries.TransCmp clistCmp where
  symm x y := clistCmp_symm x y
  le_trans h1 h2 := clistCmp_le_trans h1 h2

theorem strCmp_transCmp : Batteries.TransCmp strCmp where
  symm x y := clistCmp_symm x.data y.data
  le_trans h1 h2 := clistCmp_le_trans h1 h2

theorem strCmp_eq_iff {a b : String} : strCmp a b = .eq ↔ a = b := by
  unfold strCmp
  rw [clistCmp_eq_iff]
  exact ⟨fun h => String.ext h, fun h => by rw [h]⟩

/-- Builds a transitive comparator on `α` from one on `β` via a key
function, mirroring sorting by a single key column. -/
theorem transCmpOn {β : Type} {cmp : β → β → Ordering} (h : Batteries.TransCmp cmp)
    {α : Type} (f : α → β) : Batteries.TransCmp (fun a b => cmp (f a) (f b)) where
  symm x y := h.symm (f x) (f y)
  le_trans h1 h2 := h.le_trans h1 h2

/-- Lexicographic composition of two transitive comparators, mirroring
multi-key `sort_values`. -/
theorem transCmpThen {α : Type} {cmp₁ cmp₂ : α → α → Ordering}
    (h₁ : Batteries.TransCmp cmp₁) (h₂ : Batteries.TransCmp cmp₂) :
    Batteries.TransCmp (fun a b => (cmp₁ a b).then (cmp₂ a b)) := by
  haveI := h₁
  haveI := h₂
  exact inferInstanceAs (Batteries.TransCmp (compareLex cmp₁ cmp₂))

theorem cmp_total_of_oriented {α : Type} {cmp : α → α → Ordering}
    (h : Batteries.OrientedCmp cmp) (a b : α) : cmp a b ≠ .gt ∨ cmp b a ≠ .gt := by
  by_cases hab : cmp a b = .gt
  · right
    have := h.symm a b
    rw [hab] at this
    rw [← this]
    intro hc; cases hc
  · left; exact hab

theorem cmp_eq_of_le_le {α : Type} {cmp : α → α → Ordering}
    (h : Batteries.OrientedCmp cmp) {a b : α} (h1 : cmp a b ≠ .gt)
    (h2 : cmp b a ≠ .gt) : cmp a b = .eq := by
  match hab : cmp a b with
  | .eq => rfl
  | .gt => exact absurd hab h1
  | .lt =>
    exfalso
    apply h2
    have := h.symm a b
    rw [hab] at this
    exact this.symm

theorem head_dropWhile_false {α : Type} (p : α → Bool) :
    ∀ (y : List α) a, (y.dropWhile p).head? = some a → p a = false := by
  intro y
  induction y with
  | nil => intro a h; cases h
  | cons b bs ih =>
    intro a h
    rw [List.dropWhile_cons] at h
    by_cases hb : p b = true
    · rw [if_pos hb] at h
      exact ih a h
    · rw [if_neg hb] at h
      cases h
      exact Bool.not_eq_true _ ▸ hb

theorem exists_append_dropWhile {α : Type} (p : α → Bool) :
    ∀ y : List α, ∃ t, t ++ y.dropWhile p = y := by
  intro y
  induction y with
  | nil => exact ⟨[], rfl⟩
  | cons b bs ih =>
    by_cases hb : p b = true
    · obtain ⟨t, ht⟩ := ih
      refine ⟨b :: t, ?_⟩
      rw [List.dropWhile_cons, if_pos hb, List.cons_append, ht]
    · refine ⟨[], ?_⟩
      rw [List.dropWhile_cons, if_neg hb, List.nil_append]

theorem dropWhile_dropWhile {α : Type} (p : α → Bool) (l : List α) :
    (l.dropWhile p).dropWhile p = l.dropWhile p := by
  induction l with
  | nil => rfl
  | cons b bs ih =>
    rw [List.dropWhile_cons]
    by_cases hb : p b = true
    · rw [if_pos hb, ih]
    · rw [if_neg hb, List.dropWhile_cons, if_neg hb]

theorem dropWhile_eq_self_of_head {α : Type} (p : α → Bool) (l : List α)
    (h : ∀ a, l.head? = some a → p a = false) : l.dropWhile p = l := by
  cases l with
  | nil => rfl
  | cons b bs =>
    rw [List.dropWhile_cons, if_neg]
    rw [h b rfl]
    exact Bool.false_ne_true

theorem stripRev_eq (m : List Char)
    (hm : ∀ a, m.head? = some a → Char.isWhitespace a = false) :
    stripChars ((m.reverse.dropWhile Char.isWhitespace).reverse)
      = (m.reverse.dropWhile Char.isWhitespace).reverse := by
  have hhead : ∀ a, ((m.reverse.dropWhile Char.isWhitespace).reverse).head? = some a →
      Char.isWhitespace a = false := by
    intro a ha
    obtain ⟨tl, htl⟩ := exists_append_dropWhile Char.isWhitespace m.reverse
    have h2 := congrArg List.reverse htl
    rw [List.reverse_append, List.reverse_reverse] at h2
    cases hrn : (m.reverse.dropWhile Char.isWhitespace).reverse with
    | nil => rw [hrn] at ha; cases ha
    | cons x xs =>
      rw [hrn] at ha
      cases ha
      apply hm
      rw [← h2, hrn]
      rfl
  have h1 : (m.reverse.dropWhile Char.isWhitespace).reverse.dropWhile Char.isWhitespace
      = (m.reverse.dropWhile Char.isWhitespace).reverse :=
    dropWhile_eq_self_of_head _ _ hhead
  show (((m.reverse.dropWhile Char.isWhitespace).reverse.dropWhile
      Char.isWhitespace).reverse.dropWhile Char.isWhitespace).reverse = _
  rw [h1, List.reverse_reverse, dropWhile_dropWhile]

theorem stripChars_idem (l : List Char) : stripChars (stripChars l) = stripChars l :=
  stripRev_eq (l.dropWhile Char.isWhitespace) (head_dropWhile_false _ l)

theorem pyStrip_idem (s : String) : pyStrip (pyStrip s) = pyStrip s :=
  congrArg String.mk (stripChars_idem s.data)

theorem normCell_idem (c : Cell) : normCell (normCell c) = normCell c := by
  simp only [normCell, Cell.toPyStr, pyStrip_idem]

theorem normRow_idem (r : Row) : normRow (normRow r) = normRow r := by
  cases r
  simp [normRow, normCell_idem]

theorem then_ne_gt_left {o₁ o₂ : Ordering} (h : o₁.then o₂ ≠ .gt) : o₁ ≠ .gt :=
  fun he => h (Ordering.then_eq_gt.2 (Or.inl he))

theorem then_ne_gt_right {o₁ o₂ : Ordering} (h : o₁.then o₂ ≠ .gt)
    (he : o₁ = .eq) : o₂ ≠ .gt :=
  fun hg => h (Ordering.then_eq_gt.2 (Or.inr ⟨he, hg⟩))

theorem transCmpDesc {α : Type} (f : α → Nat) :
    Batteries.TransCmp (fun a b => natCmp (f b) (f a)) := by
  haveI : Batteries.TransCmp (fun a b : α => natCmp (f a) (f b)) :=
    transCmpOn natCmp_transCmp f
  exact inferInstanceAs (Batteries.TransCmp (flip (fun a b : α => natCmp (f a) (f b))))

theorem pairCmp_transCmp :
    Batteries.TransCmp (fun a b : String × String =>
      (strCmp a.1 b.1).then (strCmp a.2 b.2)) :=
  transCmpThen (transCmpOn strCmp_transCmp Prod.fst) (transCmpOn strCmp_transCmp Prod.snd)

theorem countCmp_transCmp :
    Batteries.TransCmp (fun a b : CountRow =>
      (strCmp a.language b.language).then ((natCmp b.n_variants a.n_variants).then
        ((natCmp b.n_senses a.n_senses).then (strCmp a.word b.word)))) :=
  transCmpThen (transCmpOn strCmp_transCmp CountRow.language)
    (transCmpThen (transCmpDesc CountRow.n_variants)
      (transCmpThen (transCmpDesc CountRow.n_senses)
        (transCmpOn strCmp_transCmp CountRow.word)))

theorem wcCmp_transCmp :
    Batteries.TransCmp (fun a b : WcGroup =>
      (natCmp b.n_variants a.n_variants).then
        ((strCmp a.language b.language).then (strCmp a.word b.word))) :=
  transCmpThen (transCmpDesc WcGroup.n_variants)
    (transCmpThen (transCmpOn strCmp_transCmp WcGroup.language)
      (transCmpOn strCmp_transCmp WcGroup.word))

instance : IsTotal (String × String) pairLe :=
  ⟨fun a b => cmp_total_of_oriented pairCmp_transCmp.toOrientedCmp a b⟩

instance : IsTrans (String × String) pairLe :=
  ⟨fun _ _ _ h1 h2 => pairCmp_transCmp.le_trans h1 h2⟩

instance : IsAntisymm (String × String) pairLe := by
  refine ⟨fun a b h1 h2 => ?_⟩
  have := cmp_eq_of_le_le pairCmp_transCmp.toOrientedCmp h1 h2
  rw [Ordering.then_eq_eq] at this
  obtain ⟨e1, e2⟩ := this
  exact Prod.ext (strCmp_eq_iff.1 e1) (strCmp_eq_iff.1 e2)

instance : IsTotal CountRow countLe :=
  ⟨fun a b => cmp_total_of_oriented countCmp_transCmp.toOrientedCmp a b⟩

instance : IsTrans CountRow countLe :=
  ⟨fun _ _ _ h1 h2 => countCmp_transCmp.le_trans h1 h2⟩

instance : IsAntisymm CountRow countLe := by
  refine ⟨fun a b h1 h2 => ?_⟩
  have := cmp_eq_of_le_le countCmp_transCmp.toOrientedCmp h1 h2
  rw [Ordering.then_eq_eq, Ordering.then_eq_eq, Ordering.then_eq_eq] at this
  obtain ⟨e1, e2, e3, e4⟩ := this
  cases a; cases b
  simp only [CountRow.mk.injEq]
  exact ⟨strCmp_eq_iff.1 e1, strCmp_eq_iff.1 e4,
    (natCmp_eq_iff.1 e2).symm, (natCmp_eq_iff.1 e3).symm⟩

instance : IsTotal WcGroup wcLe :=
  ⟨fun a b => cmp_total_of_oriented wcCmp_transCmp.toOrientedCmp a b⟩

instance : IsTrans WcGroup wcLe :=
  ⟨fun _ _ _ h1 h2 => wcCmp_transCmp.le_trans h1 h2⟩

instance : IsAntisymm WcGroup wcLe := by
  refine ⟨fun a b h1 h2 => ?_⟩
  have := cmp_eq_of_le_le wcCmp_transCmp.toOrientedCmp h1 h2
  rw [Ordering.then_eq_eq, Ordering.then_eq_eq] at this
  obtain ⟨e1, e2, e3⟩ := this
  cases a; cases b
  simp only [WcGroup.mk.injEq]
  exact ⟨strCmp_eq_iff.1 e2, strCmp_eq_iff.1 e3, (natCmp_eq_iff.1 e1).symm⟩

instance : IsTotal String strLe :=
  ⟨fun a b => cmp_total_of_oriented strCmp_transCmp.toOrientedCmp a b⟩

instance : IsTrans String strLe :=
  ⟨fun _ _ _ h1 h2 => strCmp_transCmp.le_trans h1 h2⟩

instance : IsAntisymm String strLe :=
  ⟨fun a b h1 h2 => strCmp_eq_iff.1 (cmp_eq_of_le_le strCmp_transCmp.toOrientedCmp h1 h2)⟩

instance : IsTotal (String × String) pmLe :=
  ⟨fun a b => cmp_total_of_oriented pairCmp_transCmp.toOrientedCmp a b⟩

instance : IsTrans (String × String) pmLe :=
  ⟨fun _ _ _ h1 h2 => pairCmp_transCmp.le_trans h1 h2⟩

instance : IsAntisymm (String × String) pmLe := by
  refine ⟨fun a b h1 h2 => ?_⟩
  have := cmp_eq_of_le_le pairCmp_transCmp.toOrientedCmp h1 h2
  rw [Ordering.then_eq_eq] at this
  obtain ⟨e1, e2⟩ := this
  exact Prod.ext (strCmp_eq_iff.1 e1) (strCmp_eq_iff.1 e2)

instance : IsTotal CsvFile fileLe :=
  ⟨fun a b =>
    cmp_total_of_oriented (transCmpOn strCmp_transCmp CsvFile.name).toOrientedCmp a b⟩

instance : IsTrans CsvFile fileLe :=
  ⟨fun _ _ _ h1 h2 => (transCmpOn strCmp_transCmp CsvFile.name).le_trans h1 h2⟩


theorem matchingFiles_perm (dir : List CsvFile) :
    (matchingFiles dir).Perm (dir.filter (fun f => matchesPattern f.name)) :=
  List.perm_insertionSort fileLe _

theorem mem_matchingFiles {dir : List CsvFile} {f : CsvFile} :
    f ∈ matchingFiles dir ↔ f ∈ dir ∧ matchesPattern f.name = true := by
  rw [(matchingFiles_perm dir).mem_iff, List.mem_filter]

theorem matchingFiles_sorted (dir : List CsvFile) :
    (matchingFiles dir).Pairwise fileLe :=
  List.sorted_insertionSort fileLe _

theorem matchingFiles_eq_nil_iff {dir : List CsvFile} :
    matchingFiles dir = [] ↔ ∀ f ∈ dir, matchesPattern f.name = false := by
  constructor
  · intro h f hf
    by_contra hm
    rw [Bool.not_eq_false] at hm
    have hmem : f ∈ matchingFiles dir := mem_matchingFiles.2 ⟨hf, hm⟩
    rw [h] at hmem
    cases hmem
  · intro h
    have hfil : dir.filter (fun f => matchesPattern f.name) = [] := by
      rw [List.filter_eq_nil_iff]
      intro f hf
      rw [h f hf]
      exact Bool.false_ne_true
    have hperm := matchingFiles_perm dir
    rw [hfil] at hperm
    exact hperm.eq_nil

theorem load_data_ok_eq {dir : List CsvFile} {t : List Row}
    (h : load_data dir = .ok t) :
    t = ((matchingFiles dir).map fileSeg).flatten := by
  unfold load_data at h
  split_ifs at h with h1 h2
  · injection h with h3
    subst h3
    rw [List.map_flatten, List.map_map]
    simp only [Function.comp_def, List.map_map]
    rfl

theorem load_data_eq_noInput_iff (dir : List CsvFile) :
    load_data dir = .error .noInput ↔ matchingFiles dir = [] := by
  unfold load_data
  by_cases hA : matchingFiles dir = []
  · rw [if_pos (List.isEmpty_iff.mpr hA)]
    simp [hA]
  · rw [if_neg (fun h => hA (List.isEmpty_iff.mp h))]
    by_cases hB : requiredCols.filter (fun c => decide (c ∉ unionCols dir)) = []
    · rw [if_pos (List.isEmpty_iff.mpr hB)]
      constructor
      · intro h; cases h
      · intro h; exact absurd h hA
    · rw [if_neg (fun h => hB (List.isEmpty_iff.mp h))]
      constructor
      · intro h
        injection h with h3
        cases h3
      · intro h; exact absurd h hA

theorem load_data_eq_missing_iff (dir : List CsvFile) (ms : List String) :
    load_data dir = .error (.missingColumns ms) ↔
      matchingFiles dir ≠ [] ∧
      requiredCols.filter (fun c => decide (c ∉ unionCols dir)) ≠ [] ∧
      ms = requiredCols.filter (fun c => decide (c ∉ unionCols dir)) := by
  unfold load_data
  by_cases hA : matchingFiles dir = []
  · rw [if_pos (List.isEmpty_iff.mpr hA)]
    constructor
    · intro h
      injection h with h3
      cases h3
    · rintro ⟨hne, -, -⟩
      exact absurd hA hne
  · rw [if_neg (fun h => hA (List.isEmpty_iff.mp h))]
    by_cases hB : requiredCols.filter (fun c => decide (c ∉ unionCols dir)) = []
    · rw [if_pos (List.isEmpty_iff.mpr hB)]
      constructor
      · intro h; cases h
      · rintro ⟨-, hne, -⟩
        exact absurd hB hne
    · rw [if_neg (fun h => hB (List.isEmpty_iff.mp h))]
      constructor
      · intro h
        injection h with h3
        injection h3 with h4
        exact ⟨hA, hB, h4.symm⟩
      · rintro ⟨-, -, h4⟩
        rw [h4]


theorem clInit_iff : ∀ p s : List Char, clInit p s = true ↔ ∃ r, s = p ++ r := by
  intro p
  induction p with
  | nil =>
    intro s
    simp [clInit]
  | cons a as ih =>
    intro s
    cases s with
    | nil =>
      simp [clInit]
    | cons b bs =>
      rw [clInit, Bool.and_eq_true, decide_eq_true_eq, ih bs]
      constructor
      · rintro ⟨rfl, r, rfl⟩
        exact ⟨r, rfl⟩
      · rintro ⟨r, hr⟩
        injection hr with h1 h2
        exact ⟨h1.symm, r, h2⟩

theorem clFinal_iff (l s : List Char) : clFinal l s = true ↔ ∃ r, s = r ++ l := by
  rw [clFinal, clInit_iff]
  constructor
  · rintro ⟨r, hr⟩
    refine ⟨r.reverse, ?_⟩
    have h2 := congrArg List.reverse hr
    rw [List.reverse_reverse, List.reverse_append, List.reverse_reverse] at h2
    exact h2
  · rintro ⟨r, rfl⟩
    exact ⟨r.reverse, by rw [List.reverse_append]⟩

theorem matchesPattern_iff (s : String) :
    matchesPattern s = true ↔ ∃ mid : String, s = "heteronyms_" ++ mid ++ ".csv" := by
  rw [matchesPattern, Bool.and_eq_true, Bool.and_eq_true, clInit_iff, clFinal_iff,
    decide_eq_true_eq]
  constructor
  · rintro ⟨⟨⟨r, hr⟩, ⟨q, hq⟩⟩, hlen⟩
    rw [hr] at hq
    rcases List.append_eq_append_iff.1 hq with ⟨m, hm1, hm2⟩ | ⟨m, hm1, hm2⟩
    · refine ⟨⟨m⟩, String.ext ?_⟩
      show s.data = ("heteronyms_" ++ ⟨m⟩ ++ ".csv").data
      rw [String.data_append, String.data_append]
      show s.data = "heteronyms_".data ++ m ++ ".csv".data
      rw [hr, hm2, List.append_assoc]
    · have hm0 : m.length = 0 := by
        have e1 := congrArg List.length hm1
        have e2 := congrArg List.length hr
        have e5 := congrArg List.length hm2
        rw [List.length_append] at e1 e2 e5
        have e3 : "heteronyms_".data.length = 11 := by decide
        have e4 : ".csv".data.length = 4 := by decide
        omega
      have hmnil : m = [] := List.eq_nil_of_length_eq_zero hm0
      subst hmnil
      rw [List.append_nil] at hm1
      rw [List.nil_append] at hm2
      refine ⟨"", String.ext ?_⟩
      show s.data = ("heteronyms_" ++ "" ++ ".csv").data
      rw [String.data_append, String.data_append]
      show s.data = "heteronyms_".data ++ "".data ++ ".csv".data
      rw [hr, hm2]
      rfl
  · rintro ⟨mid, rfl⟩
    have hdat : ("heteronyms_" ++ mid ++ ".csv").data
        = "heteronyms_".data ++ mid.data ++ ".csv".data := by
      rw [String.data_append, String.data_append]
    refine ⟨⟨⟨mid.data ++ ".csv".data, ?_⟩, ⟨"heteronyms_".data ++ mid.data, hdat⟩⟩, ?_⟩
    · rw [hdat, List.append_assoc]
    · rw [hdat]
      rw [List.length_append, List.length_append]
      have e3 : "heteronyms_".data.length = 11 := by decide
      have e4 : ".csv".data.length = 4 := by decide
      omega

/-- C4: `load_data` fails with the "no input" error (`FileNotFoundError`)
exactly when no file of the directory matches the glob
`heteronyms_*.csv`, and in that case the "missing columns" (schema)
error is never raised. -/
theorem load_data_noInput_characterization (dir : List CsvFile) :
    (load_data dir = .error .noInput ↔
      ∀ f ∈ dir, ¬ ∃ mid : String, f.name = "heteronyms_" ++ mid ++ ".csv") ∧
    ((∀ f ∈ dir, ¬ ∃ mid : String, f.name = "heteronyms_" ++ mid ++ ".csv") →
      ∀ ms, load_data dir ≠ .error (.missingColumns ms)) := by
  have hiff : (∀ f ∈ dir, matchesPattern f.name = false) ↔
      ∀ f ∈ dir, ¬ ∃ mid : String, f.name = "heteronyms_" ++ mid ++ ".csv" := by
    constructor <;> intro h f hf
    · intro he
      have := (matchesPattern_iff f.name).2 he
      rw [h f hf] at this
      cases this
    · cases hv : matchesPattern f.name with
      | false => rfl
      | true => exact absurd ((matchesPattern_iff f.name).1 hv) (h f hf)
  constructor
  · rw [load_data_eq_noInput_iff, matchingFiles_eq_nil_iff, hiff]
  · intro h ms hcontra
    rw [load_data_eq_missing_iff] at hcontra
    exact hcontra.1 (matchingFiles_eq_nil_iff.2 (hiff.2 h))

/-- C4, witness: a directory with a single non-matching file fails with
the "no input" error. -/
theorem load_data_noInput_witness :
    load_data [⟨"other.csv", ["language"], []⟩] = .error .noInput :=
  (load_data_noInput_characterization [⟨"other.csv", ["language"], []⟩]).1.mpr (by
    intro f hf he
    rcases List.mem_singleton.1 hf with rfl
    exact absurd ((matchesPattern_iff _).2 he) (by decide))

/-- C5: with at least one matching file, `load_data` fails with the
"missing columns" error exactly when some of the five required columns is
absent from the concatenated table's columns (the union of the matching
files' headers plus `source_file`), and the error lists exactly the
missing required columns.  Extra columns never cause failure: the
condition only mentions the required columns. -/
theorem load_data_missing_columns_characterization (dir : List CsvFile)
    (hne : ∃ f ∈ dir, matchesPattern f.name = true) :
    ((∃ ms, load_data dir = .error (.missingColumns ms)) ↔
      ∃ c ∈ requiredCols, c ∉ unionCols dir) ∧
    (∀ ms, load_data dir = .error (.missingColumns ms) →
      ∀ c, c ∈ ms ↔ c ∈ requiredCols ∧ c ∉ unionCols dir) := by
  obtain ⟨f0, hf0, hm0⟩ := hne
  have hMne : matchingFiles dir ≠ [] :=
    List.ne_nil_of_mem (mem_matchingFiles.2 ⟨hf0, hm0⟩)
  constructor
  · constructor
    · rintro ⟨ms, hms⟩
      rw [load_data_eq_missing_iff] at hms
      obtain ⟨-, hfil, -⟩ := hms
      obtain ⟨c, hc⟩ := List.exists_mem_of_ne_nil _ hfil
      rw [List.mem_filter, decide_eq_true_eq] at hc
      exact ⟨c, hc.1, hc.2⟩
    · rintro ⟨c, hc1, hc2⟩
      refine ⟨requiredCols.filter (fun c => decide (c ∉ unionCols dir)), ?_⟩
      rw [load_data_eq_missing_iff]
      refine ⟨hMne, ?_, rfl⟩
      exact List.ne_nil_of_mem (List.mem_filter.2 ⟨hc1, decide_eq_true hc2⟩)
  · intro ms hms c
    rw [load_data_eq_missing_iff] at hms
    obtain ⟨-, -, rfl⟩ := hms
    rw [List.mem_filter, decide_eq_true_eq]

/-- C5, witness: one matching file whose header has only `language` and
`word` fails with a schema error naming exactly `sense_id`, `meaning` and
`ipa`; the extra column `extra` in the header causes no failure of its
own. -/
theorem load_data_missing_columns_witness :
    "ipa" ∈ ["sense_id", "meaning", "ipa"] ∧
      load_data [⟨"heteronyms_a.csv", ["language", "word", "extra"], []⟩]
        = .error (.missingColumns ["sense_id", "meaning", "ipa"]) := by
  have hload : load_data [⟨"heteronyms_a.csv", ["language", "word", "extra"], []⟩]
      = .error (.missingColumns ["sense_id", "meaning", "ipa"]) := by rfl
  refine ⟨?_, hload⟩
  exact ((load_data_missing_columns_characterization
    [⟨"heteronyms_a.csv", ["language", "word", "extra"], []⟩]
    ⟨⟨"heteronyms_a.csv", ["language", "word", "extra"], []⟩,
      List.mem_singleton.2 rfl, by decide⟩).2
    ["sense_id", "meaning", "ipa"] hload "ipa").2 ⟨by decide, by decide⟩

/-- C7: the normalization pass of `load_data` (coerce `language`, `word`,
`ipa` to string and trim surrounding whitespace) is idempotent: applying
it twice to any table equals applying it once. -/
theorem normalization_idempotent (t : List Row) :
    (t.map normRow).map normRow = t.map normRow := by
  rw [List.map_map]
  apply List.map_congr_left
  intro r _
  exact normRow_idem r

/-- C7, witness: idempotence evaluated on a one-row table with leading and
trailing whitespace and a missing cell. -/
theorem normalization_idempotent_witness :
    (([⟨Cell.na, Cell.str " x ", Cell.na, Cell.na, Cell.str "a", "f"⟩] :
        List Row).map normRow).map normRow
      = ([⟨Cell.na, Cell.str " x ", Cell.na, Cell.na, Cell.str "a", "f"⟩] :
        List Row).map normRow :=
  normalization_idempotent [⟨Cell.na, Cell.str " x ", Cell.na, Cell.na, Cell.str "a", "f"⟩]

/-- C9: after loading, the table is never mutated: each plot function
leaves every record of the input table unchanged; `plot_ipa_length` adds
its derived `ipa_len` column to a copy whose base records are exactly the
input records. -/
theorem plots_leave_table_unchanged (t : List Row) (m : Nat) :
    (plot_variant_counts_eff t).1 = t ∧
    (plot_ipa_length t).1 = t ∧
    (plot_word_cards_eff t m).1 = t ∧
    (plot_ipa_length t).2.map Prod.fst = t := by
  refine ⟨rfl, rfl, rfl, ?_⟩
  show ((t.map (fun r => r)).map (fun r => (r, cellStrLen r.ipa))).map Prod.fst = t
  rw [List.map_map, List.map_map]
  exact (List.map_congr_left (fun r _ => rfl)).trans (List.map_id t)

/-- C9, witness: the frame property evaluated on a one-row table. -/
theorem plots_leave_table_unchanged_witness :
    (plot_variant_counts_eff [⟨Cell.str "en", Cell.str "read", Cell.na, Cell.na,
        Cell.str "rid", "f"⟩]).1
      = [⟨Cell.str "en", Cell.str "read", Cell.na, Cell.na, Cell.str "rid", "f"⟩] :=
  (plots_leave_table_unchanged
    [⟨Cell.str "en", Cell.str "read", Cell.na, Cell.na, Cell.str "rid", "f"⟩] 12).1

theorem fileSeg_source {f : CsvFile} {r : Row} (h : r ∈ fileSeg f) :
    r.source_file = f.name := by
  rw [fileSeg, List.mem_map] at h
  obtain ⟨raw, -, rfl⟩ := h
  rfl

theorem mem_load_data {dir : List CsvFile} {t : List Row} (h : load_data dir = .ok t)
    {r : Row} (hr : r ∈ t) :
    ∃ f ∈ dir, matchesPattern f.name = true ∧ r.source_file = f.name ∧
      ∃ raw ∈ f.rows, r = normRow (rawToRow f.name raw) := by
  rw [load_data_ok_eq h, List.mem_flatten] at hr
  obtain ⟨seg, hseg, hrseg⟩ := hr
  rw [List.mem_map] at hseg
  obtain ⟨f, hf, rfl⟩ := hseg
  obtain ⟨hfd, hfm⟩ := mem_matchingFiles.1 hf
  refine ⟨f, hfd, hfm, fileSeg_source hrseg, ?_⟩
  rw [fileSeg, List.mem_map] at hrseg
  obtain ⟨raw, hraw, heq⟩ := hrseg
  exact ⟨raw, hraw, heq.symm⟩


theorem filterMap_toOpt_eq_map (cs : List Cell) (h : ∀ c ∈ cs, ∃ s, c = Cell.str s) :
    cs.filterMap Cell.toOpt = cs.map Cell.toPyStr := by
  induction cs with
  | nil => rfl
  | cons c cs ih =>
    obtain ⟨s, rfl⟩ := h c (List.mem_cons_self c cs)
    have ih2 := ih (fun c hc => h c (List.mem_cons_of_mem _ hc))
    rw [List.filterMap_cons, List.map_cons]
    simp only [Cell.toOpt, Cell.toPyStr, ih2]

/-- C10: after `load_data` succeeds, the `language`, `word` and `ipa`
cells are all strings (a missing value in an input file is coerced to the
literal string `"nan"` by `astype(str)`); consequently the `dropna`
filter on `ipa` used by `plot_word_cards` removes nothing and the
aggregations see every row's coerced string, `"nan"` included, as an
ordinary value. -/
theorem loaded_no_missing_strings (dir : List CsvFile) (t : List Row)
    (h : load_data dir = .ok t) :
    (∀ r ∈ t, (∃ s, r.language = Cell.str s) ∧ (∃ s, r.word = Cell.str s) ∧
      (∃ s, r.ipa = Cell.str s)) ∧
    (∀ f ∈ dir, matchesPattern f.name = true → ∀ raw ∈ f.rows,
      getCol raw "ipa" = Cell.na →
        (normRow (rawToRow f.name raw)).ipa = Cell.str "nan" ∧
        normRow (rawToRow f.name raw) ∈ t) ∧
    (∀ l w, ((groupRows t l w).map Row.ipa).filterMap Cell.toOpt
      = (groupRows t l w).map (fun r => Cell.toPyStr r.ipa)) := by
  have hcells : ∀ r ∈ t, (∃ s, r.language = Cell.str s) ∧ (∃ s, r.word = Cell.str s) ∧
      (∃ s, r.ipa = Cell.str s) := by
    intro r hr
    obtain ⟨f, -, -, -, raw, -, rfl⟩ := mem_load_data h hr
    exact ⟨⟨_, rfl⟩, ⟨_, rfl⟩, ⟨_, rfl⟩⟩
  refine ⟨hcells, ?_, ?_⟩
  · intro f hfd hfm raw hraw hna
    constructor
    · show normCell (getCol raw "ipa") = Cell.str "nan"
      rw [hna]
      show Cell.str (pyStrip "nan") = Cell.str "nan"
      rw [show pyStrip "nan" = "nan" by decide]
    · rw [load_data_ok_eq h, List.mem_flatten]
      refine ⟨fileSeg f, List.mem_map_of_mem fileSeg (mem_matchingFiles.2 ⟨hfd, hfm⟩), ?_⟩
      rw [fileSeg]
      exact List.mem_map_of_mem _ hraw
  · intro l w
    rw [filterMap_toOpt_eq_map]
    · rw [List.map_map]
      rfl
    · intro c hc
      rw [List.mem_map] at hc
      obtain ⟨r, hr, rfl⟩ := hc
      exact (hcells r (List.mem_of_mem_filter hr)).2.2

/-- C10, witness: a matching file whose single raw row lacks the `ipa`
key loads that row with `ipa = "nan"`. -/
theorem loaded_no_missing_strings_witness :
    (normRow (rawToRow "heteronyms_a.csv" [("language", Cell.str "en"),
        ("word", Cell.str "w"), ("sense_id", Cell.str "1"),
        ("meaning", Cell.str "m")])).ipa = Cell.str "nan" := by
  have h := (loaded_no_missing_strings
    [⟨"heteronyms_a.csv", ["language", "word", "sense_id", "meaning", "ipa"],
      [[("language", Cell.str "en"), ("word", Cell.str "w"),
        ("sense_id", Cell.str "1"), ("meaning", Cell.str "m")]]⟩]
    _ rfl).2.1
    ⟨"heteronyms_a.csv", ["language", "word", "sense_id", "meaning", "ipa"],
      [[("language", Cell.str "en"), ("word", Cell.str "w"),
        ("sense_id", Cell.str "1"), ("meaning", Cell.str "m")]]⟩
    (List.mem_singleton.2 rfl) (by decide)
    [("language", Cell.str "en"), ("word", Cell.str "w"),
      ("sense_id", Cell.str "1"), ("meaning", Cell.str "m")]
    (List.mem_singleton.2 rfl) (by decide)
  exact h.1

theorem countLe_imp_countOrder {a b : CountRow} (h : countLe a b) : countOrder a b := by
  rw [countLe] at h
  match hx : strCmp a.language b.language with
  | .lt => exact Or.inl hx
  | .gt => exact absurd hx (then_ne_gt_left h)
  | .eq =>
    have hlang : a.language = b.language := strCmp_eq_iff.1 hx
    have h2 := then_ne_gt_right h hx
    match hy : natCmp b.n_variants a.n_variants with
    | .lt => exact Or.inr ⟨hlang, Or.inl (natCmp_lt_iff.1 hy)⟩
    | .gt => exact absurd hy (then_ne_gt_left h2)
    | .eq =>
      have hnv : a.n_variants = b.n_variants := (natCmp_eq_iff.1 hy).symm
      have h3 := then_ne_gt_right h2 hy
      match hz : natCmp b.n_senses a.n_senses with
      | .lt => exact Or.inr ⟨hlang, Or.inr ⟨hnv, Or.inl (natCmp_lt_iff.1 hz)⟩⟩
      | .gt => exact absurd hz (then_ne_gt_left h3)
      | .eq =>
        have hns : a.n_senses = b.n_senses := (natCmp_eq_iff.1 hz).symm
        have h4 := then_ne_gt_right h3 hz
        match hw : strCmp a.word b.word with
        | .lt => exact Or.inr ⟨hlang, Or.inr ⟨hnv, Or.inr ⟨hns, Or.inl hw⟩⟩⟩
        | .gt => exact absurd hw h4
        | .eq =>
          exact Or.inr ⟨hlang, Or.inr ⟨hnv, Or.inr ⟨hns, Or.inr (strCmp_eq_iff.1 hw)⟩⟩⟩

theorem wcLe_imp_wcOrder {a b : WcGroup} (h : wcLe a b) : wcOrder a b := by
  rw [wcLe] at h
  match hy : natCmp b.n_variants a.n_variants with
  | .lt => exact Or.inl (natCmp_lt_iff.1 hy)
  | .gt => exact absurd hy (then_ne_gt_left h)
  | .eq =>
    have hnv : a.n_variants = b.n_variants := (natCmp_eq_iff.1 hy).symm
    have h2 := then_ne_gt_right h hy
    match hx : strCmp a.language b.language with
    | .lt => exact Or.inr ⟨hnv, Or.inl hx⟩
    | .gt => exact absurd hx (then_ne_gt_left h2)
    | .eq =>
      have hlang : a.language = b.language := strCmp_eq_iff.1 hx
      have h3 := then_ne_gt_right h2 hx
      match hw : strCmp a.word b.word with
      | .lt => exact Or.inr ⟨hnv, Or.inr ⟨hlang, Or.inl hw⟩⟩
      | .gt => exact absurd hw h3
      | .eq => exact Or.inr ⟨hnv, Or.inr ⟨hlang, Or.inr (strCmp_eq_iff.1 hw)⟩⟩

theorem keyOf_eq_some {r : Row} {l w : String} :
    keyOf r = some (l, w) ↔ r.language = Cell.str l ∧ r.word = Cell.str w := by
  rcases r with ⟨lang, word, sid, mea, ip, sf⟩
  cases lang <;> cases word <;> simp [keyOf]

theorem variantCounts_keys (t : List Row) :
    (variantCounts t).map (fun c => (c.language, c.word)) = sortedKeys t := by
  rw [variantCounts, List.map_map]
  exact (List.map_congr_left (fun p _ => rfl)).trans (List.map_id _)

theorem mem_sortedKeys {t : List Row} {l w : String} :
    (l, w) ∈ sortedKeys t ↔ ∃ r ∈ t, r.language = Cell.str l ∧ r.word = Cell.str w := by
  rw [sortedKeys, List.mem_insertionSort, groupKeys, List.mem_dedup, List.mem_filterMap]
  constructor
  · rintro ⟨r, hr, hk⟩
    exact ⟨r, hr, keyOf_eq_some.1 hk⟩
  · rintro ⟨r, hr, h1, h2⟩
    exact ⟨r, hr, keyOf_eq_some.2 ⟨h1, h2⟩⟩

/-- C1: the `counts` table handed to the renderer by
`plot_variant_counts` has exactly one row per distinct
`(language, word)` group — every group present, no top-N truncation —
and its rows are ordered by language ascending, then variant count
descending, then sense count descending, then word ascending. -/
theorem plot_variant_counts_rows (t : List Row) :
    ((plot_variant_counts t).map (fun c => (c.language, c.word))).Nodup ∧
    (∀ l w, (l, w) ∈ (plot_variant_counts t).map (fun c => (c.language, c.word)) ↔
      ∃ r ∈ t, r.language = Cell.str l ∧ r.word = Cell.str w) ∧
    (plot_variant_counts t).Pairwise countOrder := by
  have hperm : (plot_variant_counts t).Perm (variantCounts t) :=
    List.perm_insertionSort countLe _
  have hkeysperm : ((plot_variant_counts t).map (fun c => (c.language, c.word))).Perm
      (sortedKeys t) := by
    rw [← variantCounts_keys]
    exact hperm.map _
  refine ⟨?_, ?_, ?_⟩
  · rw [hkeysperm.nodup_iff, sortedKeys,
      (List.perm_insertionSort pairLe _).nodup_iff]
    exact List.nodup_dedup _
  · intro l w
    rw [hkeysperm.mem_iff]
    exact mem_sortedKeys
  · exact (List.sorted_insertionSort countLe _).imp (fun h => countLe_imp_countOrder h)

/-- C1, witness: on a two-row table both groups appear among the plotted
rows. -/
theorem plot_variant_counts_rows_witness :
    ("en", "read") ∈ (plot_variant_counts
      [⟨Cell.str "en", Cell.str "read", Cell.str "1", Cell.na, Cell.str "rid", "f"⟩,
       ⟨Cell.str "sv", Cell.str "banan", Cell.str "1", Cell.na, Cell.str "ba", "f"⟩]).map
      (fun c => (c.language, c.word)) :=
  ((plot_variant_counts_rows
    [⟨Cell.str "en", Cell.str "read", Cell.str "1", Cell.na, Cell.str "rid", "f"⟩,
     ⟨Cell.str "sv", Cell.str "banan", Cell.str "1", Cell.na, Cell.str "ba", "f"⟩]).2.1
    "en" "read").2
    ⟨⟨Cell.str "en", Cell.str "read", Cell.str "1", Cell.na, Cell.str "rid", "f"⟩,
      List.mem_cons_self _ _, rfl, rfl⟩

/-- C2: `plot_word_cards` selects exactly `min max_words (number of
distinct (language, word) groups)` groups, and the selected groups come
first under the ordering distinct-ipa count descending, then language
ascending, then word ascending: the selection is sorted by that order,
precedes every unselected group under it, and selection plus remainder
is a permutation of all groups. -/
theorem plot_word_cards_selects (t : List Row) (m : Nat) :
    (plot_word_cards t m).length = min m (groupKeys t).length ∧
    (wcSelected t m).length = min m (groupKeys t).length ∧
    (wcSelected t m).Pairwise wcOrder ∧
    (∀ a ∈ wcSelected t m, ∀ b ∈ (wcSorted t).drop m, wcOrder a b) ∧
    ((wcSelected t m) ++ (wcSorted t).drop m).Perm (wcGroups t) := by
  have hlen : (wcSelected t m).length = min m (groupKeys t).length := by
    rw [wcSelected, List.length_take, wcSorted, List.length_insertionSort, wcGroups,
      List.length_map, sortedKeys, List.length_insertionSort]
  refine ⟨?_, hlen, ?_, ?_, ?_⟩
  · rw [plot_word_cards, List.length_map]
    exact hlen
  · exact (List.Pairwise.sublist (List.take_sublist m (wcSorted t))
      (List.sorted_insertionSort wcLe (wcGroups t))).imp (fun h => wcLe_imp_wcOrder h)
  · intro a ha b hb
    have hs : (wcSorted t).Pairwise wcLe := List.sorted_insertionSort wcLe _
    rw [← List.take_append_drop m (wcSorted t)] at hs
    exact wcLe_imp_wcOrder ((List.pairwise_append.1 hs).2.2 a ha b hb)
  · rw [wcSelected, List.take_append_drop]
    exact List.perm_insertionSort wcLe _

/-- C2, witness: with `max_words = 1` on a two-group table, exactly
`min 1 2 = 1` card is produced. -/
theorem plot_word_cards_selects_witness :
    (plot_word_cards
      [⟨Cell.str "en", Cell.str "read", Cell.str "1", Cell.na, Cell.str "rid", "f"⟩,
       ⟨Cell.str "sv", Cell.str "banan", Cell.str "1", Cell.na, Cell.str "ba", "f"⟩]
      1).length = min 1 (groupKeys
      [⟨Cell.str "en", Cell.str "read", Cell.str "1", Cell.na, Cell.str "rid", "f"⟩,
       ⟨Cell.str "sv", Cell.str "banan", Cell.str "1", Cell.na, Cell.str "ba", "f"⟩]).length :=
  (plot_word_cards_selects
    [⟨Cell.str "en", Cell.str "read", Cell.str "1", Cell.na, Cell.str "rid", "f"⟩,
     ⟨Cell.str "sv", Cell.str "banan", Cell.str "1", Cell.na, Cell.str "ba", "f"⟩] 1).1

theorem toOpt_eq_some {c : Cell} {s : String} :
    c.toOpt = some s ↔ c = Cell.str s := by
  cases c <;> simp [Cell.toOpt]

theorem pairOf_eq_some {r : Row} {p : String × String} :
    pairOf r = some p ↔ r.ipa = Cell.str p.1 ∧ r.meaning = Cell.str p.2 := by
  rcases p with ⟨i, m⟩
  rcases r with ⟨lang, word, sid, mea, ip, sf⟩
  cases ip <;> cases mea <;> simp [pairOf]

theorem strLt_of_le_ne {a b : String} (hle : strLe a b) (hne : a ≠ b) :
    strCmp a b = .lt := by
  match hx : strCmp a b with
  | .lt => rfl
  | .eq => exact absurd (strCmp_eq_iff.1 hx) hne
  | .gt => exact absurd hx hle

theorem pmLt_of_le_ne {p q : String × String} (hle : pmLe p q) (hne : p ≠ q) :
    strCmp p.1 q.1 = .lt ∨ (p.1 = q.1 ∧ strCmp p.2 q.2 = .lt) := by
  have hle2 : (strCmp p.1 q.1).then (strCmp p.2 q.2) ≠ .gt := hle
  match hx : strCmp p.1 q.1 with
  | .lt => exact Or.inl rfl
  | .gt => exact absurd hx (then_ne_gt_left hle2)
  | .eq =>
    have h1 := strCmp_eq_iff.1 hx
    have h2 := then_ne_gt_right hle2 hx
    match hy : strCmp p.2 q.2 with
    | .lt => exact Or.inr ⟨h1, rfl⟩
    | .gt => exact absurd hy h2
    | .eq => exact absurd (Prod.ext h1 (strCmp_eq_iff.1 hy)) hne

theorem cardIpas_sorted (t : List Row) (l w : String) :
    (cardIpas t l w).Pairwise (fun a b => strCmp a b = .lt) := by
  have hsorted : (cardIpas t l w).Pairwise strLe :=
    List.sorted_insertionSort strLe _
  have hnodup : (cardIpas t l w).Nodup := by
    rw [cardIpas, (List.perm_insertionSort strLe _).nodup_iff]
    exact List.nodup_dedup _
  exact (hsorted.and hnodup).imp (fun hab => strLt_of_le_ne hab.1 hab.2)

theorem mem_cardIpas {t : List Row} {l w s : String} :
    s ∈ cardIpas t l w ↔ ∃ r ∈ groupRows t l w, r.ipa = Cell.str s := by
  rw [cardIpas, List.mem_insertionSort, List.mem_dedup, List.mem_filterMap]
  constructor
  · rintro ⟨c, hc, hcs⟩
    rw [List.mem_map] at hc
    obtain ⟨r, hr, rfl⟩ := hc
    exact ⟨r, hr, toOpt_eq_some.1 hcs⟩
  · rintro ⟨r, hr, hs⟩
    exact ⟨r.ipa, List.mem_map_of_mem Row.ipa hr, toOpt_eq_some.2 hs⟩

theorem cardMeanings_sorted (t : List Row) (l w : String) :
    (cardMeanings t l w).Pairwise (fun p q =>
      strCmp p.1 q.1 = .lt ∨ (p.1 = q.1 ∧ strCmp p.2 q.2 = .lt)) := by
  have hsorted : (cardMeanings t l w).Pairwise pmLe :=
    List.sorted_insertionSort pmLe _
  have hnodup : (cardMeanings t l w).Nodup := by
    rw [cardMeanings, (List.perm_insertionSort pmLe _).nodup_iff]
    exact List.nodup_dedup _
  exact (hsorted.and hnodup).imp (fun hab => pmLt_of_le_ne hab.1 hab.2)

theorem mem_cardMeanings {t : List Row} {l w : String} {p : String × String} :
    p ∈ cardMeanings t l w ↔
      ∃ r ∈ groupRows t l w, r.ipa = Cell.str p.1 ∧ r.meaning = Cell.str p.2 := by
  rw [cardMeanings, List.mem_insertionSort, List.mem_dedup, List.mem_filterMap]
  constructor
  · rintro ⟨r, hr, hp⟩
    exact ⟨r, hr, pairOf_eq_some.1 hp⟩
  · rintro ⟨r, hr, hp⟩
    exact ⟨r, hr, pairOf_eq_some.2 hp⟩

/-- C8: each card built by `plot_word_cards` carries, as its variant
line, the strictly sorted list of the distinct non-missing `ipa` values
of its `(language, word)` group, and, as its meaning lines, the
deduplicated `(ipa, meaning)` pairs of the group with missing values
excluded, strictly sorted by ipa then meaning. -/
theorem plot_word_cards_content (t : List Row) (m : Nat) :
    ∀ c ∈ plot_word_cards t m,
      c.ipas.Pairwise (fun a b => strCmp a b = .lt) ∧
      (∀ s, s ∈ c.ipas ↔ ∃ r ∈ groupRows t c.language c.word, r.ipa = Cell.str s) ∧
      c.meanings.Pairwise (fun p q =>
        strCmp p.1 q.1 = .lt ∨ (p.1 = q.1 ∧ strCmp p.2 q.2 = .lt)) ∧
      (∀ p : String × String, p ∈ c.meanings ↔
        ∃ r ∈ groupRows t c.language c.word,
          r.ipa = Cell.str p.1 ∧ r.meaning = Cell.str p.2) := by
  intro c hc
  rw [plot_word_cards, List.mem_map] at hc
  obtain ⟨g, -, rfl⟩ := hc
  exact ⟨cardIpas_sorted t g.language g.word, fun s => mem_cardIpas,
    cardMeanings_sorted t g.language g.word, fun p => mem_cardMeanings⟩

/-- C8, witness: on a table whose single group has two senses with
distinct pronunciations, the rendered card contains the variant
`"rid"`. -/
theorem plot_word_cards_content_witness :
    "rid" ∈ (Card.mk "en" "read" ["red", "rid"]
      [("red", "past"), ("rid", "present")]).ipas :=
  ((plot_word_cards_content
    [⟨Cell.str "en", Cell.str "read", Cell.str "1", Cell.str "present",
        Cell.str "rid", "f"⟩,
     ⟨Cell.str "en", Cell.str "read", Cell.str "2", Cell.str "past",
        Cell.str "red", "f"⟩] 12
    (Card.mk "en" "read" ["red", "rid"] [("red", "past"), ("rid", "present")])
    (by decide)).2.1 "rid").2
    ⟨⟨Cell.str "en", Cell.str "read", Cell.str "1", Cell.str "present",
        Cell.str "rid", "f"⟩, by decide, rfl⟩

theorem insertionSort_eq_of_perm {α : Type} (r : α → α → Prop) [DecidableRel r]
    [IsTotal α r] [IsTrans α r] [IsAntisymm α r] {l1 l2 : List α}
    (h : l1.Perm l2) : l1.insertionSort r = l2.insertionSort r :=
  List.eq_of_perm_of_sorted
    (((List.perm_insertionSort r l1).trans h).trans (List.perm_insertionSort r l2).symm)
    (List.sorted_insertionSort r l1) (List.sorted_insertionSort r l2)

theorem dedup_length_append_mem {xs : List String} {s : String} (h : s ∈ xs) :
    (xs ++ [s]).dedup.length = xs.dedup.length := by
  rw [← List.card_toFinset, ← List.card_toFinset, List.toFinset_append]
  congr 1
  have : ([s] : List String).toFinset = {s} := by simp
  rw [this]
  exact Finset.union_eq_left.mpr (Finset.singleton_subset_iff.2 (List.mem_toFinset.2 h))

theorem nunique_append_mem {cs : List Cell} {c : Cell} (h : c ∈ cs) :
    nunique (cs ++ [c]) = nunique cs := by
  rw [nunique, nunique, List.filterMap_append]
  cases hc : c.toOpt with
  | none =>
    rw [show List.filterMap Cell.toOpt [c] = [] by
      rw [List.filterMap_cons, hc]; rfl]
    rw [List.append_nil]
  | some s =>
    rw [show List.filterMap Cell.toOpt [c] = [s] by
      rw [List.filterMap_cons, hc]; rfl]
    exact dedup_length_append_mem (List.mem_filterMap.2 ⟨c, h, hc⟩)

theorem group_nunique_append {t : List Row} {r : Row} (hr : r ∈ t)
    (fld : Row → Cell) (l w : String) :
    nunique ((groupRows (t ++ [r]) l w).map fld)
      = nunique ((groupRows t l w).map fld) := by
  simp only [groupRows, List.filter_append]
  by_cases hm : (r.language = Cell.str l ∧ r.word = Cell.str w)
  · rw [show List.filter (fun r => decide (r.language = Cell.str l ∧ r.word = Cell.str w)) [r]
        = [r] by simp [hm]]
    rw [List.map_append]
    exact nunique_append_mem
      (List.mem_map_of_mem fld (List.mem_filter.2 ⟨hr, by simp [hm]⟩))
  · rw [show List.filter (fun r => decide (r.language = Cell.str l ∧ r.word = Cell.str w)) [r]
        = [] by simp [hm]]
    rw [List.append_nil]

theorem sortedKeys_append_mem {t : List Row} {r : Row} (hr : r ∈ t) :
    sortedKeys (t ++ [r]) = sortedKeys t := by
  rw [sortedKeys, sortedKeys, groupKeys, groupKeys, List.filterMap_append]
  cases hk : keyOf r with
  | none =>
    rw [show List.filterMap keyOf [r] = [] by rw [List.filterMap_cons, hk]; rfl]
    rw [List.append_nil]
  | some k =>
    rw [show List.filterMap keyOf [r] = [k] by rw [List.filterMap_cons, hk]; rfl]
    apply insertionSort_eq_of_perm
    apply List.toFinset_eq_iff_perm_dedup.mp
    rw [List.toFinset_append]
    have hmem : k ∈ t.filterMap keyOf := List.mem_filterMap.2 ⟨r, hr, hk⟩
    have hsing : ([k] : List (String × String)).toFinset = {k} := by simp
    rw [hsing]
    exact Finset.union_eq_left.mpr (Finset.singleton_subset_iff.2 (List.mem_toFinset.2 hmem))

theorem variantCounts_append_mem {t : List Row} {r : Row} (hr : r ∈ t) :
    variantCounts (t ++ [r]) = variantCounts t := by
  rw [variantCounts, variantCounts, sortedKeys_append_mem hr]
  apply List.map_congr_left
  intro p _
  rw [group_nunique_append hr Row.ipa, group_nunique_append hr Row.sense_id]

/-- C3: every row of the `counts` table of `plot_variant_counts` counts
`n_variants` as the number of distinct non-missing `ipa` values and
`n_senses` as the number of distinct non-missing `sense_id` values of
its `(language, word)` group, and appending an exact duplicate of an
existing record never changes the table. -/
theorem variant_counts_aggregation (t : List Row) :
    (∀ c ∈ plot_variant_counts t,
      c.n_variants = (((groupRows t c.language c.word).map Row.ipa).filterMap
        Cell.toOpt).toFinset.card ∧
      c.n_senses = (((groupRows t c.language c.word).map Row.sense_id).filterMap
        Cell.toOpt).toFinset.card) ∧
    (∀ r ∈ t, plot_variant_counts (t ++ [r]) = plot_variant_counts t) := by
  constructor
  · intro c hc
    rw [plot_variant_counts, List.mem_insertionSort, variantCounts, List.mem_map] at hc
    obtain ⟨p, -, rfl⟩ := hc
    exact ⟨(List.card_toFinset _).symm, (List.card_toFinset _).symm⟩
  · intro r hr
    rw [plot_variant_counts, plot_variant_counts, variantCounts_append_mem hr]

/-- C3, witness: a group with one sense and two distinct ipa strings
counts as `n_variants = 2`, `n_senses = 1`, and appending a duplicate of
an existing row leaves the table unchanged. -/
theorem variant_counts_aggregation_witness :
    plot_variant_counts
      [⟨Cell.str "en", Cell.str "read", Cell.str "1", Cell.na, Cell.str "rid", "f"⟩,
       ⟨Cell.str "en", Cell.str "read", Cell.str "1", Cell.na, Cell.str "red", "f"⟩]
      = [⟨"en", "read", 2, 1⟩] ∧
    plot_variant_counts
      ([⟨Cell.str "en", Cell.str "read", Cell.str "1", Cell.na, Cell.str "rid", "f"⟩,
        ⟨Cell.str "en", Cell.str "read", Cell.str "1", Cell.na, Cell.str "red", "f"⟩] ++
       [⟨Cell.str "en", Cell.str "read", Cell.str "1", Cell.na, Cell.str "rid", "f"⟩])
      = plot_variant_counts
      [⟨Cell.str "en", Cell.str "read", Cell.str "1", Cell.na, Cell.str "rid", "f"⟩,
       ⟨Cell.str "en", Cell.str "read", Cell.str "1", Cell.na, Cell.str "red", "f"⟩] :=
  ⟨by decide,
   (variant_counts_aggregation
     [⟨Cell.str "en", Cell.str "read", Cell.str "1", Cell.na, Cell.str "rid", "f"⟩,
      ⟨Cell.str "en", Cell.str "read", Cell.str "1", Cell.na, Cell.str "red", "f"⟩]).2
     ⟨Cell.str "en", Cell.str "read", Cell.str "1", Cell.na, Cell.str "rid", "f"⟩
     (List.mem_cons_self _ _)⟩

theorem strLe_refl (s : String) : strLe s s := by
  haveI := strCmp_transCmp.toOrientedCmp
  have h : strCmp s s = .eq := Batteries.OrientedCmp.cmp_refl
  show strCmp s s ≠ .gt
  rw [h]
  intro hc
  cases hc

theorem filter_flatten_fileSeg :
    ∀ files : List CsvFile, (files.map CsvFile.name).Nodup → ∀ f ∈ files,
      ((files.map fileSeg).flatten).filter (fun r => decide (r.source_file = f.name))
        = fileSeg f := by
  intro files
  induction files with
  | nil =>
    intro _ f hf
    cases hf
  | cons g gs ih =>
    intro hnd f hf
    rw [List.map_cons, List.flatten_cons, List.filter_append]
    rw [List.map_cons, List.nodup_cons] at hnd
    rcases List.mem_cons.1 hf with rfl | hf2
    · have hfg : (fileSeg f).filter (fun r => decide (r.source_file = f.name)) = fileSeg f := by
        rw [List.filter_eq_self]
        intro r hr
        simp [fileSeg_source hr]
      have hrest : ((gs.map fileSeg).flatten).filter
          (fun r => decide (r.source_file = f.name)) = [] := by
        rw [List.filter_eq_nil_iff]
        intro r hrm
        rw [List.mem_flatten] at hrm
        obtain ⟨seg, hseg, hrseg⟩ := hrm
        rw [List.mem_map] at hseg
        obtain ⟨g2, hg2, rfl⟩ := hseg
        have hsf : r.source_file = g2.name := fileSeg_source hrseg
        have hne : ¬ (g2.name = f.name) := by
          intro he
          exact hnd.1 (he ▸ List.mem_map_of_mem CsvFile.name hg2)
        simp [hsf, hne]
      rw [hfg, hrest, List.append_nil]
    · have hneq : ¬ (g.name = f.name) := by
        intro he
        exact hnd.1 (he.symm ▸ List.mem_map_of_mem CsvFile.name hf2)
      have hg0 : (fileSeg g).filter (fun r => decide (r.source_file = f.name)) = [] := by
        rw [List.filter_eq_nil_iff]
        intro r hrm
        simp [fileSeg_source hrm, hneq]
      rw [hg0, List.nil_append, ih hnd.2 f hf2]

/-- C6: with distinct file names, a successful `load_data` returns a
table whose row count is the sum of the matching files' row counts,
whose rows are ordered by originating file name (lexicographically),
where every row carries its file of origin in `source_file` and comes
from a raw row of that file, and where the rows attributed to each
matching file are exactly that file's rows in their original order
(tagged and normalized). -/
theorem load_data_concat_spec (dir : List CsvFile) (t : List Row)
    (hnd : (dir.map CsvFile.name).Nodup) (h : load_data dir = .ok t) :
    t.length = ((dir.filter (fun f => matchesPattern f.name)).map
      (fun f => f.rows.length)).sum ∧
    t.Pairwise (fun a b => strLe a.source_file b.source_file) ∧
    (∀ r ∈ t, ∃ f ∈ dir, matchesPattern f.name = true ∧ r.source_file = f.name ∧
      ∃ raw ∈ f.rows, r = normRow (rawToRow f.name raw)) ∧
    (∀ f ∈ dir, matchesPattern f.name = true →
      t.filter (fun r => decide (r.source_file = f.name)) = fileSeg f) := by
  refine ⟨?_, ?_, fun r hr => mem_load_data h hr, ?_⟩
  · rw [load_data_ok_eq h, List.length_flatten, List.map_map]
    have h1 : (List.length ∘ fileSeg) = fun f : CsvFile => f.rows.length := by
      funext f
      show (fileSeg f).length = _
      rw [fileSeg, List.length_map]
    rw [h1]
    exact ((matchingFiles_perm dir).map (fun f => f.rows.length)).sum_eq
  · rw [load_data_ok_eq h, List.pairwise_flatten]
    constructor
    · intro seg hseg
      rw [List.mem_map] at hseg
      obtain ⟨f, -, rfl⟩ := hseg
      apply List.pairwise_of_forall_mem_list
      intro a ha b hb
      show strLe a.source_file b.source_file
      rw [fileSeg_source ha, fileSeg_source hb]
      exact strLe_refl f.name
    · rw [List.pairwise_map]
      exact (matchingFiles_sorted dir).imp
        (fun hfg => fun x hx y hy => by
          show strLe x.source_file y.source_file
          rw [fileSeg_source hx, fileSeg_source hy]
          exact hfg)
  · intro f hfd hfm
    have hndM : ((matchingFiles dir).map CsvFile.name).Nodup := by
      have h1 : ((dir.filter (fun f => matchesPattern f.name)).map CsvFile.name).Nodup :=
        List.Nodup.sublist (List.Sublist.map CsvFile.name (List.filter_sublist dir)) hnd
      exact ((matchingFiles_perm dir).map CsvFile.name).nodup_iff.2 h1
    rw [load_data_ok_eq h]
    exact filter_flatten_fileSeg (matchingFiles dir) hndM f (mem_matchingFiles.2 ⟨hfd, hfm⟩)

/-- C6, witness: two matching one-row files, listed out of name order,
load into a two-row table (the sum of the input row counts). -/
theorem load_data_concat_spec_witness :
    ∃ t, load_data
      [⟨"heteronyms_b.csv", ["language", "word", "sense_id", "meaning", "ipa"],
        [[("language", Cell.str "sv"), ("word", Cell.str "banan"),
          ("sense_id", Cell.str "1"), ("meaning", Cell.str "fruit"),
          ("ipa", Cell.str "ba")]]⟩,
       ⟨"heteronyms_a.csv", ["language", "word", "sense_id", "meaning", "ipa"],
        [[("language", Cell.str "en"), ("word", Cell.str "read"),
          ("sense_id", Cell.str "1"), ("meaning", Cell.str "pr"),
          ("ipa", Cell.str "rid")]]⟩] = .ok t ∧ t.length = 2 := by
  refine ⟨_, rfl, ?_⟩
  have h := (load_data_concat_spec
    [⟨"heteronyms_b.csv", ["language", "word", "sense_id", "meaning", "ipa"],
      [[("language", Cell.str "sv"), ("word", Cell.str "banan"),
        ("sense_id", Cell.str "1"), ("meaning", Cell.str "fruit"),
        ("ipa", Cell.str "ba")]]⟩,
     ⟨"heteronyms_a.csv", ["language", "word", "sense_id", "meaning", "ipa"],
      [[("language", Cell.str "en"), ("word", Cell.str "read"),
        ("sense_id", Cell.str "1"), ("meaning", Cell.str "pr"),
        ("ipa", Cell.str "rid")]]⟩] _ (by decide) rfl).1
  exact h.trans (by decide)
